import Mathlib

/-!
A shallow embedding of the tableau simplex solver of `src/simplex.py`,
carried out in exact rational arithmetic (`ℚ` in place of IEEE floats).
Tableaus are lists of rows; numpy reads are modelled with `List.getD`
(out-of-range reads default to `0`, which never happens on well-shaped
input).  The Python `None` components of `_find_pivot`'s result become
`Option ℕ`, and the runtime error that `_pivot` raises when handed a
`None` column becomes the `Except.error` outcome of `solveGo`.
-/

namespace Simplex

/-- A tableau: `m` constraint rows followed by the objective row, each row
holding the `n` variable columns followed by the right-hand side. -/
abbrev Tab : Type := List (List ℚ)

/-- Entry `(i, j)` of a tableau (`tableau[i, j]` in the source). -/
def entry (tab : Tab) (i j : ℕ) : ℚ := (tab.getD i []).getD j 0

/-- The floating tolerance `1e-10` used by `_is_pivot_col`, as an exact
rational. -/
def eps : ℚ := 1 / 10 ^ 10

/-- Embeds `_build_tableau`: stack `[A | b]` on top of the objective row
`c ++ [0]` (lines 22-33 of the source). -/
def buildTableau (c : List ℚ) (A : List (List ℚ)) (b : List ℚ) : Tab :=
  (A.zip b).map (fun p => p.1 ++ [p.2]) ++ [c ++ [0]]

/-- The objective row without its RHS entry: `tableau[-1, :-1]`. -/
def objRow (tab : Tab) : List ℚ := (tab.getLastD []).dropLast

/-- Embeds `_continue`: `np.any(obj_row > 0)` (lines 35-37). -/
def continueT (tab : Tab) : Bool := (objRow tab).any fun x => decide (0 < x)

/-- Index of the first minimum of a list (`np.argmin`: ties go to the
lowest index); `d` is a default for out-of-range reads, never used on a
nonempty list. -/
def argmin {α : Type} [LinearOrder α] (d : α) : List α → ℕ
  | [] => 0
  | [_] => 0
  | x :: y :: ys =>
    if (y :: ys).getD (argmin d (y :: ys)) d < x then argmin d (y :: ys) + 1 else 0

/-- Index of the first maximum of a list (`np.argmax`: ties go to the
lowest index). -/
def argmax {α : Type} [LinearOrder α] (d : α) : List α → ℕ
  | [] => 0
  | [_] => 0
  | x :: y :: ys =>
    if x < (y :: ys).getD (argmax d (y :: ys)) d then argmax d (y :: ys) + 1 else 0

/-- Indices of the strictly positive entries of a row:
`np.where(obj_row > 0)[0]` (line 44). -/
def posIndices (row : List ℚ) : List ℕ :=
  (List.range row.length).filter fun j => decide (0 < row.getD j 0)

/-- The index computation `positive_indices[np.argmin(obj_row[positive_indices])]`
of `_find_pivot` (lines 44-46), as a function of the scanned row. -/
def pickPos (row : List ℚ) : ℕ :=
  (posIndices row).getD (argmin 0 ((posIndices row).map fun j => row.getD j 0)) 0

/-- Embeds the entering-column choice of `_find_pivot` (lines 44-46),
applied to the objective row. -/
def pivotColOf (tab : Tab) : ℕ := pickPos (objRow tab)

/-- Embeds the ratio vector of `_find_pivot` (lines 48-52):
`np.where(col > 0, rhs / col, np.inf)` over the constraint rows, with
`np.inf` modelled by `⊤ : WithTop ℚ`. -/
def ratiosOf (tab : Tab) (c : ℕ) : List (WithTop ℚ) :=
  tab.dropLast.map fun row =>
    if 0 < row.getD c 0 then ((row.getLastD 0 / row.getD c 0 : ℚ) : WithTop ℚ) else ⊤

/-- Embeds `_find_pivot` (lines 39-62).  Returns `(none, none)` when no
objective entry is positive, `(some col, none)` when every ratio is
infinite (the unboundedness signal, with the column in the *row* slot,
exactly as `return pivot_col, None` does), and `(some row, some col)`
otherwise. -/
def findPivot (tab : Tab) : Option ℕ × Option ℕ :=
  if continueT tab then
    let c := pivotColOf tab
    if (ratiosOf tab c).all (fun x => decide (x = ⊤)) then (some c, none)
    else (some (argmin ⊤ (ratiosOf tab c)), some c)
  else (none, none)

/-- Embeds the row operations of `_pivot` (lines 66-72) at an explicit
position: normalize row `r` by the pivot entry, then subtract from every
other row its entry in column `c` times the normalized pivot row. -/
def applyPivot (tab : Tab) (r c : ℕ) : Tab :=
  let p := entry tab r c
  let prow := (tab.getD r []).map (· / p)
  (List.range tab.length).map fun i =>
    if i = r then prow
    else List.zipWith (fun a q => a - (tab.getD i []).getD c 0 * q) (tab.getD i []) prow

/-- Embeds `_is_pivot_col` (lines 101-110): exactly one constraint-row
entry of absolute value above `1e-10`, and that entry within `1e-10`
of `1`. -/
def isPivotCol (col : List ℚ) : Bool :=
  let cp := col.dropLast
  if (cp.filter fun x => decide (eps < |x|)).length ≠ 1 then false
  else decide (|cp.getD (argmax 0 (cp.map fun x => |x|)) 0 - 1| < eps)

/-- Embeds `_primal_solution` (lines 80-99): for each variable column that
passes `_is_pivot_col`, report the RHS entry of the row holding the
maximum-absolute-value entry of the **full** column (`np.argmax(np.abs(col))`
ranges over the objective row too). -/
def primalSolution (tab : Tab) : List (ℕ × ℚ) :=
  (List.range ((tab.getD 0 []).length - 1)).filterMap fun j =>
    let col := tab.map fun row => row.getD j 0
    if isPivotCol col then
      some (j, (tab.getD (argmax 0 (col.map fun x => |x|)) []).getLastD 0)
    else none

/-- Embeds `_objective_value` (lines 148-149): `-tableau[-1, -1]`. -/
def objectiveValue (tab : Tab) : ℚ := -(tab.getLastD []).getLastD 0

/-- Embeds the `while` loop of `solve` (lines 118-146) by fuel
(`fuel = max_iters - iteration`).  The result carries the remaining fuel
(`0` remaining ⟺ the iteration-limit warning fires), the final tableau,
and the `Option`al solution list and objective value of the returned
triple.  The `(none, _)` arm is `solve`'s `pivot_row is None` branch; the
`(some _, none)` arm is the runtime error `_pivot` raises when the
unboundedness signal `(pivot_col, None)` slips past that check. -/
def solveGo : ℕ → Tab → Except Unit (ℕ × Tab × Option (List (ℕ × ℚ)) × Option ℚ)
  | 0, tab => .ok (0, tab, some (primalSolution tab), some (objectiveValue tab))
  | fuel + 1, tab =>
    if continueT tab then
      match findPivot tab with
      | (none, _) => .ok (fuel + 1, tab, none, none)
      | (some _, none) => .error ()
      | (some r, some c) => solveGo fuel (applyPivot tab r c)
    else .ok (fuel + 1, tab, some (primalSolution tab), some (objectiveValue tab))

/-- Embeds `Simplex(c, A, b, max_iters).solve()`. -/
def solve (c : List ℚ) (A : List (List ℚ)) (b : List ℚ) (maxIters : ℕ) :
    Except Unit (ℕ × Tab × Option (List (ℕ × ℚ)) × Option ℚ) :=
  solveGo maxIters (buildTableau c A b)

/-- One pivot performed by `solve`: `_find_pivot` chose an actual
`(row, col)` pair and `_pivot` applied it. -/
def StepRel (tab tab' : Tab) : Prop :=
  ∃ r c, findPivot tab = (some r, some c) ∧ tab' = applyPivot tab r c

/-- A well-shaped tableau: `m` constraint rows plus the objective row,
each of `n` variable columns plus the RHS column. -/
def Rect (m n : ℕ) (tab : Tab) : Prop :=
  tab.length = m + 1 ∧ ∀ row ∈ tab, row.length = n + 1

/-- Well-shaped with all constraint-row RHS entries nonnegative. -/
def Feasible (m n : ℕ) (tab : Tab) : Prop :=
  Rect m n tab ∧ ∀ i, i < m → 0 ≤ entry tab i n

/-! Characterization of `argmin` / `argmax` (`np.argmin` / `np.argmax`):
they return the first index achieving the extremum. -/

theorem argmin_lt_length {α : Type} [LinearOrder α] (d : α) (l : List α) (h : l ≠ []) :
    argmin d l < l.length := by
  induction l with
  | nil => exact absurd rfl h
  | cons x t ih =>
    cases t with
    | nil => simp [argmin]
    | cons y ys =>
      rw [argmin]
      split
      · simpa using Nat.succ_lt_succ (ih (by simp))
      · simp

theorem getD_argmin_le {α : Type} [LinearOrder α] (d : α) (l : List α) (j : ℕ)
    (hj : j < l.length) : l.getD (argmin d l) d ≤ l.getD j d := by
  induction l generalizing j with
  | nil => simp at hj
  | cons x t ih =>
    cases t with
    | nil =>
      have : j = 0 := by simpa using Nat.lt_one_iff.mp (by simpa using hj)
      subst this
      simp [argmin]
    | cons y ys =>
      rw [argmin]
      split
      · rename_i hlt
        cases j with
        | zero => simpa using le_of_lt hlt
        | succ j' => simpa using ih j' (by simpa using Nat.lt_of_succ_lt_succ hj)
      · rename_i hge
        cases j with
        | zero => simp
        | succ j' =>
          have h1 : x ≤ (y :: ys).getD (argmin d (y :: ys)) d := le_of_not_lt hge
          have h2 := ih j' (by simpa using Nat.lt_of_succ_lt_succ hj)
          simpa using le_trans h1 h2

theorem getD_argmin_lt {α : Type} [LinearOrder α] (d : α) (l : List α) (j : ℕ)
    (hj : j < argmin d l) : l.getD (argmin d l) d < l.getD j d := by
  induction l generalizing j with
  | nil => simp [argmin] at hj
  | cons x t ih =>
    cases t with
    | nil => simp [argmin] at hj
    | cons y ys =>
      rw [argmin] at hj ⊢
      split at hj
      · rename_i hlt
        rw [if_pos hlt]
        cases j with
        | zero => simpa using hlt
        | succ j' => simpa using ih j' (Nat.lt_of_succ_lt_succ hj)
      · exact absurd hj (Nat.not_lt_zero j)

theorem argmax_lt_length {α : Type} [LinearOrder α] (d : α) (l : List α) (h : l ≠ []) :
    argmax d l < l.length := by
  induction l with
  | nil => exact absurd rfl h
  | cons x t ih =>
    cases t with
    | nil => simp [argmax]
    | cons y ys =>
      rw [argmax]
      split
      · simpa using Nat.succ_lt_succ (ih (by simp))
      · simp

theorem le_getD_argmax {α : Type} [LinearOrder α] (d : α) (l : List α) (j : ℕ)
    (hj : j < l.length) : l.getD j d ≤ l.getD (argmax d l) d := by
  induction l generalizing j with
  | nil => simp at hj
  | cons x t ih =>
    cases t with
    | nil =>
      have : j = 0 := by simpa using Nat.lt_one_iff.mp (by simpa using hj)
      subst this
      simp [argmax]
    | cons y ys =>
      rw [argmax]
      split
      · rename_i hlt
        cases j with
        | zero => simpa using le_of_lt hlt
        | succ j' => simpa using ih j' (by simpa using Nat.lt_of_succ_lt_succ hj)
      · rename_i hge
        cases j with
        | zero => simp
        | succ j' =>
          have h1 : (y :: ys).getD (argmax d (y :: ys)) d ≤ x := le_of_not_lt hge
          have h2 := ih j' (by simpa using Nat.lt_of_succ_lt_succ hj)
          simpa using le_trans h2 h1

theorem getD_lt_argmax {α : Type} [LinearOrder α] (d : α) (l : List α) (j : ℕ)
    (hj : j < argmax d l) : l.getD j d < l.getD (argmax d l) d := by
  induction l generalizing j with
  | nil => simp [argmax] at hj
  | cons x t ih =>
    cases t with
    | nil => simp [argmax] at hj
    | cons y ys =>
      rw [argmax] at hj ⊢
      split at hj
      · rename_i hlt
        rw [if_pos hlt]
        cases j with
        | zero => simpa using hlt
        | succ j' => simpa using ih j' (Nat.lt_of_succ_lt_succ hj)
      · exact absurd hj (Nat.not_lt_zero j)

/-! Shape of a well-formed tableau, and bridges between the list-level
reads of the embedding and the `entry` function. -/

theorem getLastD_eq_getD {α : Type} (l : List α) (d : α) :
    l.getLastD d = l.getD (l.length - 1) d := by
  rw [List.getLastD_eq_getLast?, List.getLast?_eq_getElem?, List.getD_eq_getElem?_getD]

theorem getD_of_getElem? {α : Type} {l : List α} {j : ℕ} {x d : α} (h : l[j]? = some x) :
    l.getD j d = x := by
  rw [List.getD_eq_getElem?_getD, h, Option.getD_some]

theorem Rect.row_length {tab : Tab} {m n : ℕ} (h : Rect m n tab) {i : ℕ}
    (hi : i < tab.length) : (tab.getD i []).length = n + 1 := by
  rw [getD_of_getElem? (List.getElem?_eq_getElem hi)]
  exact h.2 _ (tab.getElem_mem hi)

theorem Rect.m_lt {tab : Tab} {m n : ℕ} (h : Rect m n tab) : m < tab.length := by
  rw [h.1]
  exact Nat.lt_succ_self m

theorem lastRow_eq_getD {tab : Tab} {m n : ℕ} (h : Rect m n tab) :
    tab.getLastD [] = tab.getD m [] := by
  rw [getLastD_eq_getD, h.1]
  simp

theorem objRow_length {tab : Tab} {m n : ℕ} (h : Rect m n tab) :
    (objRow tab).length = n := by
  rw [objRow, lastRow_eq_getD h, List.length_dropLast, h.row_length h.m_lt]
  simp

theorem objRow_getD {tab : Tab} {m n : ℕ} (h : Rect m n tab) {j : ℕ} (hj : j < n) :
    (objRow tab).getD j 0 = entry tab m j := by
  have hrow : (tab.getD m []).length = n + 1 := h.row_length h.m_lt
  have hj1 : j < (tab.getD m []).length := by omega
  have h1 : ((tab.getD m []).dropLast)[j]? = some ((tab.getD m []).get ⟨j, hj1⟩) := by
    rw [List.getElem?_dropLast, if_pos (by omega), List.getElem?_eq_getElem hj1]
    simp
  rw [objRow, lastRow_eq_getD h, getD_of_getElem? h1, entry,
    getD_of_getElem? (List.getElem?_eq_getElem hj1)]
  simp

theorem rhs_eq_entry {tab : Tab} {m n : ℕ} (h : Rect m n tab) {i : ℕ}
    (hi : i < tab.length) : (tab.getD i []).getLastD 0 = entry tab i n := by
  rw [getLastD_eq_getD, h.row_length hi, entry]
  simp

theorem continueT_iff {tab : Tab} {m n : ℕ} (h : Rect m n tab) :
    continueT tab = true ↔ ∃ j, j < n ∧ 0 < entry tab m j := by
  rw [continueT, List.any_eq_true]
  constructor
  · rintro ⟨x, hx, hpos⟩
    obtain ⟨j, hj, hxj⟩ := List.mem_iff_getElem.mp hx
    have hjn : j < n := by rwa [objRow_length h] at hj
    refine ⟨j, hjn, ?_⟩
    rw [← objRow_getD h hjn, getD_of_getElem? (List.getElem?_eq_getElem hj), hxj]
    exact of_decide_eq_true hpos
  · rintro ⟨j, hj, hpos⟩
    have hj' : j < (objRow tab).length := by rw [objRow_length h]; exact hj
    refine ⟨(objRow tab).getD j 0, ?_, ?_⟩
    · rw [getD_of_getElem? (List.getElem?_eq_getElem hj')]
      exact (objRow tab).getElem_mem hj'
    · rw [objRow_getD h hj]
      exact decide_eq_true hpos

theorem continueT_false_iff (tab : Tab) :
    continueT tab = false ↔ ∀ j, j < (objRow tab).length → (objRow tab).getD j 0 ≤ 0 := by
  rw [continueT, List.any_eq_false]
  constructor
  · intro hall j hj
    have := hall _ ((objRow tab).getElem_mem hj)
    rw [getD_of_getElem? (List.getElem?_eq_getElem hj)]
    simpa using this
  · intro hall x hx
    obtain ⟨j, hj, hxj⟩ := List.mem_iff_getElem.mp hx
    have := hall j hj
    rw [getD_of_getElem? (List.getElem?_eq_getElem hj), hxj] at this
    simpa using this

/-! Characterization of pivot selection (`_find_pivot`). -/

theorem ratiosOf_length (tab : Tab) (c : ℕ) : (ratiosOf tab c).length = tab.length - 1 := by
  simp [ratiosOf]

theorem ratiosOf_getD {tab : Tab} {m n : ℕ} (h : Rect m n tab) (c : ℕ) {i : ℕ} (hi : i < m) :
    (ratiosOf tab c).getD i ⊤ =
      if 0 < entry tab i c then ((entry tab i n / entry tab i c : ℚ) : WithTop ℚ) else ⊤ := by
  have hi' : i < tab.length := by rw [h.1]; omega
  have hg : tab[i]? = some (tab.getD i []) := by
    rw [List.getElem?_eq_getElem hi', getD_of_getElem? (List.getElem?_eq_getElem hi')]
  have h1 : (tab.dropLast)[i]? = some (tab.getD i []) := by
    rw [List.getElem?_dropLast, if_pos (by rw [h.1]; omega)]
    exact hg
  have h2 : (ratiosOf tab c)[i]? = some (if 0 < (tab.getD i []).getD c 0
      then (((tab.getD i []).getLastD 0 / (tab.getD i []).getD c 0 : ℚ) : WithTop ℚ) else ⊤) := by
    simp only [ratiosOf, List.getElem?_map, h1]
    rfl
  rw [getD_of_getElem? h2, rhs_eq_entry h hi']
  simp only [entry]

theorem findPivot_of_not_continue {tab : Tab} (h : continueT tab = false) :
    findPivot tab = (none, none) := by
  simp [findPivot, h]

theorem findPivot_fst_ne_none {tab : Tab} (h : continueT tab = true) :
    (findPivot tab).1 ≠ none := by
  simp only [findPivot, h, if_true]
  split <;> simp

theorem findPivot_pair_elim {tab : Tab} {r c : ℕ} (h : findPivot tab = (some r, some c)) :
    continueT tab = true ∧ c = pivotColOf tab ∧
      ((ratiosOf tab c).all fun x => decide (x = ⊤)) = false ∧
      r = argmin ⊤ (ratiosOf tab c) := by
  by_cases hc : continueT tab = true
  · simp only [findPivot, hc, if_true] at h
    split at h
    · rename_i hall
      simp at h
    · rename_i hall
      simp only [Prod.mk.injEq, Option.some.injEq] at h
      obtain ⟨h1, h2⟩ := h
      subst h1
      subst h2
      exact ⟨hc, rfl, by simpa using hall, rfl⟩
  · rw [findPivot_of_not_continue (by simpa using hc)] at h
    simp at h

theorem findPivot_spec {tab : Tab} {m n : ℕ} (h : Rect m n tab) {r c : ℕ}
    (hfp : findPivot tab = (some r, some c)) :
    r < m ∧ 0 < entry tab r c ∧
      (∀ i, i < m → 0 < entry tab i c →
        entry tab r n / entry tab r c ≤ entry tab i n / entry tab i c) ∧
      (∀ i, i < r → 0 < entry tab i c →
        entry tab r n / entry tab r c < entry tab i n / entry tab i c) := by
  obtain ⟨hcont, hceq, hall, hreq⟩ := findPivot_pair_elim hfp
  have hlen : (ratiosOf tab c).length = m := by
    rw [ratiosOf_length, h.1]
    simp
  obtain ⟨x, hxmem, hxt⟩ := List.all_eq_false.mp hall
  have hxt' : x ≠ ⊤ := by simpa using hxt
  have hne : ratiosOf tab c ≠ [] := List.ne_nil_of_mem hxmem
  have hr : r < m := by
    rw [hreq, ← hlen]
    exact argmin_lt_length _ _ hne
  obtain ⟨i0, hi0len, hx0⟩ := List.mem_iff_getElem.mp hxmem
  have hxval : (ratiosOf tab c).getD i0 ⊤ = x :=
    getD_of_getElem? (by rw [List.getElem?_eq_getElem hi0len, hx0])
  have hminle := getD_argmin_le ⊤ (ratiosOf tab c) i0 hi0len
  rw [← hreq, hxval] at hminle
  have hrtop : (ratiosOf tab c).getD r ⊤ ≠ ⊤ := by
    intro htop
    rw [htop] at hminle
    exact hxt' (top_le_iff.mp hminle)
  have hratr := ratiosOf_getD h c hr
  by_cases hpos : 0 < entry tab r c
  · rw [if_pos hpos] at hratr
    refine ⟨hr, hpos, ?_, ?_⟩
    · intro i him hipos
      have hilen : i < (ratiosOf tab c).length := by omega
      have hge := getD_argmin_le ⊤ (ratiosOf tab c) i hilen
      rw [← hreq, hratr, ratiosOf_getD h c him, if_pos hipos] at hge
      exact_mod_cast hge
    · intro i hir hipos
      have hlt := getD_argmin_lt ⊤ (ratiosOf tab c) i (by rwa [← hreq])
      rw [← hreq, hratr, ratiosOf_getD h c (lt_trans hir hr), if_pos hipos] at hlt
      exact_mod_cast hlt
  · rw [if_neg hpos] at hratr
    exact absurd hratr hrtop

theorem posIndices_pairwise (row : List ℚ) : (posIndices row).Pairwise (· < ·) :=
  (List.pairwise_lt_range _).filter _

theorem mem_posIndices {row : List ℚ} {j : ℕ} :
    j ∈ posIndices row ↔ j < row.length ∧ 0 < row.getD j 0 := by
  simp [posIndices]

theorem pickPos_spec (row : List ℚ) (hex : ∃ j, j < row.length ∧ 0 < row.getD j 0) :
    pickPos row < row.length ∧ 0 < row.getD (pickPos row) 0 ∧
      (∀ j, j < row.length → 0 < row.getD j 0 → row.getD (pickPos row) 0 ≤ row.getD j 0) ∧
      (∀ j, j < pickPos row → 0 < row.getD j 0 → row.getD (pickPos row) 0 < row.getD j 0) := by
  obtain ⟨j0, hj0, hj0pos⟩ := hex
  have hj0P : j0 ∈ posIndices row := mem_posIndices.mpr ⟨hj0, hj0pos⟩
  have hPne : posIndices row ≠ [] := List.ne_nil_of_mem hj0P
  have hvlen : ((posIndices row).map fun j => row.getD j 0).length = (posIndices row).length :=
    List.length_map _ _
  have hvne : ((posIndices row).map fun j => row.getD j 0) ≠ [] := by
    intro hnil
    apply hPne
    rwa [← List.length_eq_zero, ← hvlen, List.length_eq_zero]
  have hkP : argmin 0 ((posIndices row).map fun j => row.getD j 0) < (posIndices row).length := by
    rw [← hvlen]
    exact argmin_lt_length _ _ hvne
  have hpickP : pickPos row ∈ posIndices row := by
    rw [pickPos, getD_of_getElem? (List.getElem?_eq_getElem hkP)]
    exact (posIndices row).getElem_mem hkP
  obtain ⟨hpl, hppos⟩ := mem_posIndices.mp hpickP
  have hvalAt : ∀ idx, idx < (posIndices row).length →
      ((posIndices row).map fun j => row.getD j 0).getD idx 0
        = row.getD ((posIndices row).getD idx 0) 0 := by
    intro idx hidx
    refine getD_of_getElem? ?_
    rw [List.getElem?_map, List.getElem?_eq_getElem hidx,
      getD_of_getElem? (List.getElem?_eq_getElem hidx)]
    rfl
  refine ⟨hpl, hppos, ?_, ?_⟩
  · intro j hjl hjpos
    obtain ⟨idx, hidx, hPidx⟩ := List.mem_iff_getElem.mp (mem_posIndices.mpr ⟨hjl, hjpos⟩)
    have hPidx' : (posIndices row).getD idx 0 = j :=
      getD_of_getElem? (by rw [List.getElem?_eq_getElem hidx, hPidx])
    have hle := getD_argmin_le 0 ((posIndices row).map fun j => row.getD j 0) idx
      (by rwa [hvlen])
    rw [hvalAt _ hkP, hvalAt _ hidx, hPidx'] at hle
    exact hle
  · intro j hjp hjpos
    have hjl : j < row.length := lt_trans hjp hpl
    obtain ⟨idx, hidx, hPidx⟩ := List.mem_iff_getElem.mp (mem_posIndices.mpr ⟨hjl, hjpos⟩)
    have hPidx' : (posIndices row).getD idx 0 = j :=
      getD_of_getElem? (by rw [List.getElem?_eq_getElem hidx, hPidx])
    have hidxk : idx < argmin 0 ((posIndices row).map fun j => row.getD j 0) := by
      rcases lt_trichotomy idx (argmin 0 ((posIndices row).map fun j => row.getD j 0)) with
        hlt | heq | hgt
      · exact hlt
      · exfalso
        rw [pickPos, ← heq, hPidx'] at hjp
        exact lt_irrefl j hjp
      · exfalso
        have hpair := (List.pairwise_iff_getElem.mp (posIndices_pairwise row)) _ _ hkP hidx hgt
        rw [hPidx] at hpair
        rw [pickPos, getD_of_getElem? (List.getElem?_eq_getElem hkP)] at hjp
        exact lt_irrefl j (lt_trans hjp hpair)
    have hlt := getD_argmin_lt 0 ((posIndices row).map fun j => row.getD j 0) idx hidxk
    rw [hvalAt _ hkP, hvalAt _ hidx, hPidx'] at hlt
    exact hlt

theorem pivotCol_spec {tab : Tab} {m n : ℕ} (h : Rect m n tab)
    (hex : ∃ j, j < n ∧ 0 < entry tab m j) :
    pivotColOf tab < n ∧ 0 < entry tab m (pivotColOf tab) ∧
      (∀ j, j < n → 0 < entry tab m j → entry tab m (pivotColOf tab) ≤ entry tab m j) ∧
      (∀ j, j < pivotColOf tab → 0 < entry tab m j →
        entry tab m (pivotColOf tab) < entry tab m j) := by
  have hlen : (objRow tab).length = n := objRow_length h
  have hex' : ∃ j, j < (objRow tab).length ∧ 0 < (objRow tab).getD j 0 := by
    obtain ⟨j, hj, hjpos⟩ := hex
    exact ⟨j, by rwa [hlen], by rwa [objRow_getD h hj]⟩
  obtain ⟨h1, h2, h3, h4⟩ := pickPos_spec (objRow tab) hex'
  rw [hlen] at h1
  have hpc : pivotColOf tab = pickPos (objRow tab) := rfl
  rw [← hpc] at h1 h2 h3 h4
  rw [objRow_getD h h1] at h2
  refine ⟨h1, h2, ?_, ?_⟩
  · intro j hj hjpos
    have := h3 j (by rwa [hlen]) (by rwa [objRow_getD h hj])
    rwa [objRow_getD h h1, objRow_getD h hj] at this
  · intro j hj hjpos
    have hjn : j < n := lt_trans hj h1
    have := h4 j hj (by rwa [objRow_getD h hjn])
    rwa [objRow_getD h h1, objRow_getD h hjn] at this

/-! Entrywise characterization of pivot execution (`_pivot`). -/

theorem getD_map_div (l : List ℚ) (p : ℚ) (j : ℕ) :
    (l.map fun a => a / p).getD j 0 = l.getD j 0 / p := by
  rcases hj : l[j]? with _ | x
  · rw [List.getD_eq_getElem?_getD, List.getElem?_map, hj, List.getD_eq_getElem?_getD, hj]
    simp
  · rw [getD_of_getElem? (by rw [List.getElem?_map, hj]; rfl), getD_of_getElem? hj]

theorem getD_zipWith_sub (a bl : List ℚ) (mu : ℚ) (j : ℕ) (hlen : a.length = bl.length) :
    (List.zipWith (fun x q => x - mu * q) a bl).getD j 0 = a.getD j 0 - mu * bl.getD j 0 := by
  rcases lt_or_ge j a.length with hj | hj
  · have hjb : j < bl.length := by omega
    have hz : (List.zipWith (fun x q => x - mu * q) a bl)[j]?
        = some (a.getD j 0 - mu * bl.getD j 0) := by
      rw [List.getElem?_zipWith, List.getElem?_eq_getElem hj, List.getElem?_eq_getElem hjb,
        getD_of_getElem? (List.getElem?_eq_getElem hj),
        getD_of_getElem? (List.getElem?_eq_getElem hjb)]
    rw [getD_of_getElem? hz]
  · have hja : a[j]? = none := List.getElem?_eq_none hj
    have hjb : bl[j]? = none := List.getElem?_eq_none (by omega)
    have hz : (List.zipWith (fun x q => x - mu * q) a bl)[j]? = none := by
      rw [List.getElem?_zipWith, hja, hjb]
    rw [List.getD_eq_getElem?_getD, hz, List.getD_eq_getElem?_getD, hja,
      List.getD_eq_getElem?_getD, hjb]
    simp

theorem applyPivot_length (tab : Tab) (r c : ℕ) : (applyPivot tab r c).length = tab.length := by
  simp [applyPivot]

theorem applyPivot_row {tab : Tab} (r c : ℕ) {i : ℕ} (hi : i < tab.length) :
    (applyPivot tab r c).getD i [] =
      if i = r then (tab.getD r []).map fun a => a / entry tab r c
      else List.zipWith (fun a q => a - (tab.getD i []).getD c 0 * q) (tab.getD i [])
        ((tab.getD r []).map fun a => a / entry tab r c) := by
  refine getD_of_getElem? ?_
  simp only [applyPivot]
  rw [List.getElem?_map, List.getElem?_range (by simpa using hi)]
  rfl

theorem applyPivot_entry {tab : Tab} {m n : ℕ} (h : Rect m n tab) (r c : ℕ)
    (hr : r < m + 1) {i : ℕ} (hi : i < m + 1) (j : ℕ) :
    entry (applyPivot tab r c) i j =
      if i = r then entry tab r j / entry tab r c
      else entry tab i j - entry tab i c * (entry tab r j / entry tab r c) := by
  have hi' : i < tab.length := by rw [h.1]; omega
  have hr' : r < tab.length := by rw [h.1]; omega
  rw [entry, applyPivot_row r c hi']
  by_cases hir : i = r
  · rw [if_pos hir, if_pos hir, getD_map_div]
    rfl
  · rw [if_neg hir, if_neg hir,
      getD_zipWith_sub _ _ _ _ (by rw [List.length_map, h.row_length hi', h.row_length hr']),
      getD_map_div]
    rfl

theorem applyPivot_rect {tab : Tab} {m n : ℕ} (h : Rect m n tab) {r : ℕ} (c : ℕ)
    (hr : r < m + 1) : Rect m n (applyPivot tab r c) := by
  have hr' : r < tab.length := by rw [h.1]; omega
  constructor
  · rw [applyPivot_length, h.1]
  · intro row hrow
    simp only [applyPivot, List.mem_map, List.mem_range] at hrow
    obtain ⟨i, hi, hrow⟩ := hrow
    subst hrow
    split
    · rw [List.length_map, h.row_length hr']
    · rw [List.length_zipWith, List.length_map, h.row_length hi, h.row_length hr']
      simp

/-! The feasibility invariant of the iteration. -/

theorem feasible_step {tab tab' : Tab} {m n : ℕ} (hf : Feasible m n tab)
    (hstep : StepRel tab tab') : Feasible m n tab' := by
  obtain ⟨h, hrhs⟩ := hf
  obtain ⟨r, c, hfp, rfl⟩ := hstep
  obtain ⟨hr, hpos, hmin, _⟩ := findPivot_spec h hfp
  have hr1 : r < m + 1 := by omega
  refine ⟨applyPivot_rect h c hr1, ?_⟩
  intro i him
  rw [applyPivot_entry h r c hr1 (by omega)]
  by_cases hir : i = r
  · rw [if_pos hir]
    exact div_nonneg (hrhs r hr) (le_of_lt hpos)
  · rw [if_neg hir]
    by_cases hic : 0 < entry tab i c
    · have hratio := hmin i him hic
      rw [div_le_div_iff₀ hpos hic] at hratio
      rw [sub_nonneg, ← mul_div_assoc, div_le_iff₀ hpos]
      linarith [hratio]
    · push_neg at hic
      have hq : 0 ≤ entry tab r n / entry tab r c :=
        div_nonneg (hrhs r hr) (le_of_lt hpos)
      have hneg := mul_nonneg (neg_nonneg.mpr hic) hq
      have := hrhs i him
      nlinarith [hneg]

theorem feasible_reach {tab tab' : Tab} {m n : ℕ} (hf : Feasible m n tab)
    (hreach : Relation.ReflTransGen StepRel tab tab') : Feasible m n tab' := by
  induction hreach with
  | refl => exact hf
  | tail _ hstep ih => exact feasible_step ih hstep

theorem buildTableau_rect {c : List ℚ} {A : List (List ℚ)} {b : List ℚ} {m n : ℕ}
    (hA : A.length = m) (hrows : ∀ row ∈ A, row.length = n) (hc : c.length = n)
    (hb : b.length = m) : Rect m n (buildTableau c A b) := by
  constructor
  · simp [buildTableau, hA, hb]
  · intro row hrow
    rw [buildTableau, List.mem_append] at hrow
    rcases hrow with hrow | hrow
    · rw [List.mem_map] at hrow
      obtain ⟨p, hp, hrow⟩ := hrow
      subst hrow
      obtain ⟨h1, _⟩ := List.of_mem_zip hp
      simp [hrows _ h1]
    · simp only [List.mem_singleton] at hrow
      subst hrow
      simp [hc]

theorem buildTableau_feasible {c : List ℚ} {A : List (List ℚ)} {b : List ℚ} {m n : ℕ}
    (hA : A.length = m) (hrows : ∀ row ∈ A, row.length = n) (hc : c.length = n)
    (hb : b.length = m) (hb0 : ∀ x ∈ b, 0 ≤ x) : Feasible m n (buildTableau c A b) := by
  refine ⟨buildTableau_rect hA hrows hc hb, ?_⟩
  intro i him
  have hiz : i < (A.zip b).length := by
    rw [List.length_zip]
    omega
  have hilt : i < ((A.zip b).map fun p => p.1 ++ [p.2]).length := by
    rw [List.length_map]
    exact hiz
  have hrow : (buildTableau c A b).getD i [] = A.getD i [] ++ [b.getD i 0] := by
    refine getD_of_getElem? ?_
    rw [buildTableau, List.getElem?_append_left hilt, List.getElem?_map,
      List.getElem?_eq_getElem hiz, List.getElem_zip]
    have e1 : A.getD i [] = A[i] :=
      getD_of_getElem? (List.getElem?_eq_getElem (by omega))
    have e2 : b.getD i 0 = b[i] :=
      getD_of_getElem? (List.getElem?_eq_getElem (by omega))
    rw [e1, e2]
    rfl
  rw [entry, hrow]
  have hlenA : (A.getD i []).length = n :=
    hrows _ (by
      rw [getD_of_getElem? (List.getElem?_eq_getElem (show i < A.length by omega))]
      exact A.getElem_mem (by omega))
  have hcat : (A.getD i [] ++ [b.getD i 0]).getD n 0 = b.getD i 0 := by
    refine getD_of_getElem? ?_
    rw [List.getElem?_eq_getElem (by rw [List.length_append, hlenA]; simp),
      List.getElem_concat_length _ _ _ hlenA.symm]
  rw [hcat, getD_of_getElem? (List.getElem?_eq_getElem (show i < b.length by omega))]
  exact hb0 _ (b.getElem_mem (by omega))

/-! Objective-value monotonicity machinery. -/

theorem objectiveValue_eq {tab : Tab} {m n : ℕ} (h : Rect m n tab) :
    objectiveValue tab = -entry tab m n := by
  rw [objectiveValue, lastRow_eq_getD h, rhs_eq_entry h h.m_lt]

theorem obj_step_mono {tab : Tab} {m n : ℕ} (hf : Feasible m n tab) {r c : ℕ}
    (hfp : findPivot tab = (some r, some c)) :
    objectiveValue tab ≤ objectiveValue (applyPivot tab r c) := by
  obtain ⟨h, hrhs⟩ := hf
  obtain ⟨hcont, hceq, -, -⟩ := findPivot_pair_elim hfp
  obtain ⟨hr, hpos, -, -⟩ := findPivot_spec h hfp
  have hex := (continueT_iff h).mp hcont
  obtain ⟨hcn, hcpos, -, -⟩ := pivotCol_spec h hex
  rw [← hceq] at hcn hcpos
  have hrect' := applyPivot_rect h c (show r < m + 1 by omega)
  rw [objectiveValue_eq h, objectiveValue_eq hrect',
    applyPivot_entry h r c (by omega) (show m < m + 1 by omega),
    if_neg (show ¬ m = r by omega)]
  have h1 : 0 ≤ entry tab m c * (entry tab r n / entry tab r c) :=
    mul_nonneg (le_of_lt hcpos) (div_nonneg (hrhs r hr) (le_of_lt hpos))
  linarith

theorem obj_mono_reach {tab1 tab2 : Tab} {m n : ℕ} (hf : Feasible m n tab1)
    (hreach : Relation.ReflTransGen StepRel tab1 tab2) :
    objectiveValue tab1 ≤ objectiveValue tab2 := by
  induction hreach with
  | refl => exact le_refl _
  | tail hsteps hstep ih =>
    obtain ⟨r, c, hfp, rfl⟩ := hstep
    exact le_trans ih (obj_step_mono (feasible_reach hf hsteps) hfp)

/-! Claim theorems. -/

/-- C1: on the unbounded input c=[1], A=[[-1]], b=[5] pivot selection does
signal unboundedness (it returns `(some 0, none)`, the column in the row
slot), yet `solve` does not stop with `(tableau, None, None)`: the
`pivot_row is None` test never matches that signal, `_pivot` is entered,
and its indexing with a `None` column raises a runtime error, modelled by
`Except.error ()`.  This contradicts the claim (and the dead
`return self.tableau, None, None` branch shows the code's own intent). -/
theorem C1_unbounded_crash :
    findPivot (buildTableau [1] [[-1]] [5]) = (some 0, none) ∧
      solve [1] [[-1]] [5] 1000 = .error () := ⟨rfl, rfl⟩

/-- C2 counterexample: on c=[-1], A=[[1]], b=[5] the solver does execute
zero pivots and report objective value 0, but the solution list is
`[(0, 5)]`, not empty: the single decision column `[1]` passes the
basic-column test, so `_primal_solution` reports `x_0 = 5`. -/
theorem C2_solution_not_empty :
    solve [-1] [[1]] [5] 1000 = .ok (1000, [[1, 5], [-1, 0]], some [(0, 5)], some 0) ∧
      some [((0 : ℕ), (5 : ℚ))] ≠ some ([] : List (ℕ × ℚ)) :=
  ⟨by with_unfolding_all rfl, by simp⟩

/-- C2 amended: for c=[-1], A=[[1]], b=[5], `solve` executes zero pivots
(all 1000 iterations of fuel remain), returns objective value 0, and
returns the solution list `[(0, 5)]` (column 0 is a unit column in the
constraint rows, so extraction reports x_0 = 5). -/
theorem C2_trivial_scenario :
    solve [-1] [[1]] [5] 1000 = .ok (1000, [[1, 5], [-1, 0]], some [(0, 5)], some 0) := by
  with_unfolding_all rfl

/-- C3: when some objective-row entry in columns 0..n-1 is strictly
positive, the entering column is a column of strictly positive
objective-row entry that attains the smallest such value, any earlier
column has a strictly larger positive entry (lowest-index tie-break), and
`_find_pivot` reports exactly this column (in its second slot, or in its
first slot when signalling unboundedness). -/
theorem C3_entering_column {tab : Tab} {m n : ℕ} (h : Rect m n tab)
    (hex : ∃ j, j < n ∧ 0 < entry tab m j) :
    pivotColOf tab < n ∧ 0 < entry tab m (pivotColOf tab) ∧
      (∀ j, j < n → 0 < entry tab m j → entry tab m (pivotColOf tab) ≤ entry tab m j) ∧
      (∀ j, j < pivotColOf tab → 0 < entry tab m j →
        entry tab m (pivotColOf tab) < entry tab m j) ∧
      ((findPivot tab).1 = some (pivotColOf tab) ∨
        (findPivot tab).2 = some (pivotColOf tab)) := by
  obtain ⟨h1, h2, h3, h4⟩ := pivotCol_spec h hex
  refine ⟨h1, h2, h3, h4, ?_⟩
  have hcont : continueT tab = true := (continueT_iff h).mpr hex
  by_cases hall : ((ratiosOf tab (pivotColOf tab)).all fun x => decide (x = ⊤)) = true
  · left
    simp [findPivot, hcont, hall]
  · right
    simp [findPivot, hcont, hall]

/-- Witness for C3 at the tableau [[1, 2, 3], [2, 1, 0]] (m = 1, n = 2):
the objective row is [2, 1], whose smallest positive entry sits in
column 1. -/
theorem C3_entering_column_witness :
    (Rect 1 2 [[(1 : ℚ), 2, 3], [2, 1, 0]] ∧
      ∃ j, j < 2 ∧ 0 < entry [[(1 : ℚ), 2, 3], [2, 1, 0]] 1 j) ∧
      (pivotColOf [[(1 : ℚ), 2, 3], [2, 1, 0]] < 2 ∧
        0 < entry [[(1 : ℚ), 2, 3], [2, 1, 0]] 1 (pivotColOf [[(1 : ℚ), 2, 3], [2, 1, 0]]) ∧
        (∀ j, j < 2 → 0 < entry [[(1 : ℚ), 2, 3], [2, 1, 0]] 1 j →
          entry [[(1 : ℚ), 2, 3], [2, 1, 0]] 1 (pivotColOf [[(1 : ℚ), 2, 3], [2, 1, 0]])
            ≤ entry [[(1 : ℚ), 2, 3], [2, 1, 0]] 1 j) ∧
        (∀ j, j < pivotColOf [[(1 : ℚ), 2, 3], [2, 1, 0]] →
          0 < entry [[(1 : ℚ), 2, 3], [2, 1, 0]] 1 j →
          entry [[(1 : ℚ), 2, 3], [2, 1, 0]] 1 (pivotColOf [[(1 : ℚ), 2, 3], [2, 1, 0]])
            < entry [[(1 : ℚ), 2, 3], [2, 1, 0]] 1 j) ∧
        ((findPivot [[(1 : ℚ), 2, 3], [2, 1, 0]]).1
            = some (pivotColOf [[(1 : ℚ), 2, 3], [2, 1, 0]]) ∨
          (findPivot [[(1 : ℚ), 2, 3], [2, 1, 0]]).2
            = some (pivotColOf [[(1 : ℚ), 2, 3], [2, 1, 0]]))) :=
  ⟨⟨by constructor <;> decide, ⟨0, by decide, by decide⟩⟩,
    C3_entering_column (by constructor <;> decide) ⟨0, by decide, by decide⟩⟩

/-- C4: whenever `_find_pivot` returns an actual pivot pair
`(some r, some c)`, the leaving row `r` is a constraint row with a
strictly positive entry in column `c` whose ratio RHS/entry is minimal
among all constraint rows with strictly positive entry in that column
(rows with non-positive entry are excluded), and every earlier eligible
row has a strictly larger ratio (lowest-index tie-break). -/
theorem C4_ratio_test {tab : Tab} {m n : ℕ} {r c : ℕ} (h : Rect m n tab)
    (hfp : findPivot tab = (some r, some c)) :
    r < m ∧ 0 < entry tab r c ∧
      (∀ i, i < m → 0 < entry tab i c →
        entry tab r n / entry tab r c ≤ entry tab i n / entry tab i c) ∧
      (∀ i, i < r → 0 < entry tab i c →
        entry tab r n / entry tab r c < entry tab i n / entry tab i c) :=
  findPivot_spec h hfp

/-- Witness for C4 at the tableau [[1, 0, 4], [1, 0, 2], [1, 1, 0]]
(m = 2, n = 2): the entering column is 0, the ratios are 4 and 2, so the
leaving row is row 1. -/
theorem C4_ratio_test_witness :
    (Rect 2 2 [[(1 : ℚ), 0, 4], [1, 0, 2], [1, 1, 0]] ∧
      findPivot [[(1 : ℚ), 0, 4], [1, 0, 2], [1, 1, 0]] = (some 1, some 0)) ∧
      (1 < 2 ∧ 0 < entry [[(1 : ℚ), 0, 4], [1, 0, 2], [1, 1, 0]] 1 0 ∧
        (∀ i, i < 2 → 0 < entry [[(1 : ℚ), 0, 4], [1, 0, 2], [1, 1, 0]] i 0 →
          entry [[(1 : ℚ), 0, 4], [1, 0, 2], [1, 1, 0]] 1 2
              / entry [[(1 : ℚ), 0, 4], [1, 0, 2], [1, 1, 0]] 1 0
            ≤ entry [[(1 : ℚ), 0, 4], [1, 0, 2], [1, 1, 0]] i 2
              / entry [[(1 : ℚ), 0, 4], [1, 0, 2], [1, 1, 0]] i 0) ∧
        (∀ i, i < 1 → 0 < entry [[(1 : ℚ), 0, 4], [1, 0, 2], [1, 1, 0]] i 0 →
          entry [[(1 : ℚ), 0, 4], [1, 0, 2], [1, 1, 0]] 1 2
              / entry [[(1 : ℚ), 0, 4], [1, 0, 2], [1, 1, 0]] 1 0
            < entry [[(1 : ℚ), 0, 4], [1, 0, 2], [1, 1, 0]] i 2
              / entry [[(1 : ℚ), 0, 4], [1, 0, 2], [1, 1, 0]] i 0)) :=
  ⟨⟨by constructor <;> decide, by with_unfolding_all decide⟩,
    C4_ratio_test (by constructor <;> decide) (by with_unfolding_all decide)⟩

/-- C5: pivoting at a position `(r, c)` with nonzero entry replaces row
`r` by itself divided by the pivot entry (so entry `(r, c)` becomes 1)
and every other row `i` (the objective row included) by itself minus its
column-`c` entry times the normalized pivot row (so entry `(i, c)`
becomes 0). -/
theorem C5_pivot_execution {tab : Tab} {m n : ℕ} (h : Rect m n tab) (r c : ℕ)
    (hr : r < m + 1) (hp : entry tab r c ≠ 0) :
    (∀ j, entry (applyPivot tab r c) r j = entry tab r j / entry tab r c) ∧
      entry (applyPivot tab r c) r c = 1 ∧
      (∀ i, i < m + 1 → i ≠ r → ∀ j,
        entry (applyPivot tab r c) i j
          = entry tab i j - entry tab i c * (entry tab r j / entry tab r c)) ∧
      (∀ i, i < m + 1 → i ≠ r → entry (applyPivot tab r c) i c = 0) := by
  refine ⟨?_, ?_, ?_, ?_⟩
  · intro j
    rw [applyPivot_entry h r c hr hr j, if_pos rfl]
  · rw [applyPivot_entry h r c hr hr c, if_pos rfl, div_self hp]
  · intro i hi hir j
    rw [applyPivot_entry h r c hr hi j, if_neg hir]
  · intro i hi hir
    rw [applyPivot_entry h r c hr hi c, if_neg hir, div_self hp, mul_one, sub_self]

/-- Witness for C5 at the tableau [[2, 4], [1, 3]] with pivot (0, 0):
the pivot entry is 2. -/
theorem C5_pivot_execution_witness :
    (Rect 1 1 [[(2 : ℚ), 4], [1, 3]] ∧ 0 < 1 + 1 ∧
      entry [[(2 : ℚ), 4], [1, 3]] 0 0 ≠ 0) ∧
      ((∀ j, entry (applyPivot [[(2 : ℚ), 4], [1, 3]] 0 0) 0 j
          = entry [[(2 : ℚ), 4], [1, 3]] 0 j / entry [[(2 : ℚ), 4], [1, 3]] 0 0) ∧
        entry (applyPivot [[(2 : ℚ), 4], [1, 3]] 0 0) 0 0 = 1 ∧
        (∀ i, i < 1 + 1 → i ≠ 0 → ∀ j,
          entry (applyPivot [[(2 : ℚ), 4], [1, 3]] 0 0) i j
            = entry [[(2 : ℚ), 4], [1, 3]] i j
              - entry [[(2 : ℚ), 4], [1, 3]] i 0
                * (entry [[(2 : ℚ), 4], [1, 3]] 0 j / entry [[(2 : ℚ), 4], [1, 3]] 0 0)) ∧
        (∀ i, i < 1 + 1 → i ≠ 0 →
          entry (applyPivot [[(2 : ℚ), 4], [1, 3]] 0 0) i 0 = 0)) :=
  ⟨⟨by constructor <;> decide, by decide, by decide⟩,
    C5_pivot_execution (show Rect 1 1 [[(2 : ℚ), 4], [1, 3]] by constructor <;> decide)
      0 0 (by decide) (by decide)⟩

/-- C6: for an input with componentwise nonnegative `b`, every tableau
obtained from the initial tableau by any sequence of pivots performed by
`solve` (each pivot being at a position selected by `_find_pivot`) has
all constraint-row RHS entries nonnegative: feasibility is an invariant
of the iteration. -/
theorem C6_feasibility_invariant {c : List ℚ} {A : List (List ℚ)} {b : List ℚ} {m n : ℕ}
    {tab' : Tab} (hA : A.length = m) (hrows : ∀ row ∈ A, row.length = n)
    (hc : c.length = n) (hb : b.length = m) (hb0 : ∀ x ∈ b, 0 ≤ x)
    (hreach : Relation.ReflTransGen StepRel (buildTableau c A b) tab') :
    ∀ i, i < m → 0 ≤ entry tab' i n :=
  (feasible_reach (buildTableau_feasible hA hrows hc hb hb0) hreach).2

/-- Witness for C6: from c=[1], A=[[1]], b=[2] one pivot at (0, 0) leads
to the tableau [[1, 2], [0, -2]], whose constraint RHS 2 is nonnegative. -/
theorem C6_feasibility_invariant_witness :
    (([[(1 : ℚ)]] : List (List ℚ)).length = 1 ∧
      (∀ row ∈ ([[(1 : ℚ)]] : List (List ℚ)), row.length = 1) ∧
      ([(1 : ℚ)] : List ℚ).length = 1 ∧ ([(2 : ℚ)] : List ℚ).length = 1 ∧
      (∀ x ∈ ([(2 : ℚ)] : List ℚ), 0 ≤ x)) ∧
      (∀ i, i < 1 → 0 ≤ entry [[(1 : ℚ), 2], [0, -2]] i 1) :=
  ⟨⟨rfl, by decide, rfl, rfl, by decide⟩,
    @C6_feasibility_invariant [(1 : ℚ)] [[(1 : ℚ)]] [(2 : ℚ)] 1 1 [[(1 : ℚ), 2], [0, -2]]
      rfl (by decide) rfl rfl (by decide)
      (Relation.ReflTransGen.single
        ⟨0, 0, by with_unfolding_all rfl, by with_unfolding_all rfl⟩)⟩

/-- C7: for an input with componentwise nonnegative `b`, the objective
value `-tableau[m][n]` is non-decreasing along the pivots performed by
`solve`: if `tab1` is reached from the initial tableau and `tab2` is
reached from `tab1`, the objective value at `tab2` is at least that at
`tab1`. -/
theorem C7_objective_monotone {c : List ℚ} {A : List (List ℚ)} {b : List ℚ} {m n : ℕ}
    {tab1 tab2 : Tab} (hA : A.length = m) (hrows : ∀ row ∈ A, row.length = n)
    (hc : c.length = n) (hb : b.length = m) (hb0 : ∀ x ∈ b, 0 ≤ x)
    (h1 : Relation.ReflTransGen StepRel (buildTableau c A b) tab1)
    (h2 : Relation.ReflTransGen StepRel tab1 tab2) :
    objectiveValue tab1 ≤ objectiveValue tab2 :=
  obj_mono_reach (feasible_reach (buildTableau_feasible hA hrows hc hb hb0) h1) h2

/-- Witness for C7: from c=[1], A=[[1]], b=[2] one pivot raises the
objective value from 0 to 2. -/
theorem C7_objective_monotone_witness :
    ((∀ x ∈ ([(2 : ℚ)] : List ℚ), 0 ≤ x) ∧
      objectiveValue (buildTableau [1] [[1]] [2]) = 0 ∧
      objectiveValue [[(1 : ℚ), 2], [0, -2]] = 2) ∧
      objectiveValue (buildTableau [1] [[1]] [2]) ≤ objectiveValue [[(1 : ℚ), 2], [0, -2]] :=
  ⟨⟨by decide, by with_unfolding_all decide, by with_unfolding_all decide⟩,
    @C7_objective_monotone [(1 : ℚ)] [[(1 : ℚ)]] [(2 : ℚ)] 1 1
      (buildTableau [1] [[1]] [2]) [[(1 : ℚ), 2], [0, -2]]
      rfl (by decide) rfl rfl (by decide)
      Relation.ReflTransGen.refl
      (Relation.ReflTransGen.single
        ⟨0, 0, by with_unfolding_all rfl, by with_unfolding_all rfl⟩)⟩

/-- C8: if the solve loop returns normally with fuel remaining — i.e. the
loop exited because improvement is no longer possible, before the
iteration cap, which is the OPTIMAL outcome — then every objective-row
entry of the final tableau in columns 0..n-1 is ≤ 0. -/
theorem C8_optimal_objective_row {fuel : ℕ} {tab : Tab} {fl : ℕ} {tab' : Tab}
    {sol : Option (List (ℕ × ℚ))} {obj : Option ℚ}
    (h : solveGo fuel tab = .ok (fl, tab', sol, obj)) (hfl : 0 < fl) :
    ∀ j, j < (objRow tab').length → (objRow tab').getD j 0 ≤ 0 := by
  induction fuel generalizing tab with
  | zero =>
    simp only [solveGo, Except.ok.injEq, Prod.mk.injEq] at h
    obtain ⟨h1, -⟩ := h
    omega
  | succ fuel ih =>
    by_cases hcont : continueT tab = true
    · rcases hfp : findPivot tab with ⟨pr, pc⟩
      rcases pr with _ | r
      · exact absurd (by rw [hfp]) (findPivot_fst_ne_none hcont)
      · rcases pc with _ | c
        · simp only [solveGo] at h
          rw [if_pos hcont, hfp] at h
          simp at h
        · simp only [solveGo] at h
          rw [if_pos hcont, hfp] at h
          exact ih h
    · simp only [solveGo] at h
      rw [if_neg hcont] at h
      simp only [Except.ok.injEq, Prod.mk.injEq] at h
      obtain ⟨-, h2, -, -⟩ := h
      subst h2
      intro j hj
      exact (continueT_false_iff tab).mp (by simpa using hcont) j hj

/-- Witness for C8: on the already-optimal tableau [[1, 5], [-1, 0]] the
loop exits at once with all 5 units of fuel left, and the objective row
[-1] is nonpositive. -/
theorem C8_optimal_objective_row_witness :
    (solveGo 5 [[(1 : ℚ), 5], [-1, 0]]
        = .ok (5, [[(1 : ℚ), 5], [-1, 0]], some [(0, 5)], some 0) ∧ 0 < 5) ∧
      (∀ j, j < (objRow [[(1 : ℚ), 5], [-1, 0]]).length →
        (objRow [[(1 : ℚ), 5], [-1, 0]]).getD j 0 ≤ 0) :=
  ⟨⟨by with_unfolding_all rfl, by decide⟩,
    @C8_optimal_objective_row 5 [[(1 : ℚ), 5], [-1, 0]] 5 [[(1 : ℚ), 5], [-1, 0]]
      (some [(0, 5)]) (some 0) (by with_unfolding_all rfl) (by decide)⟩

/-- C9: solution extraction can report the wrong row's RHS.  The column
[1, -2] (unit entry in its single constraint row, objective entry -2)
passes `_is_pivot_col`, but `np.argmax(np.abs(col))` scans the full
column including the objective row, so for the tableau [[1, 5], [-2, 7]]
the reported value is 7 — the objective row's RHS — instead of 5, the
RHS of the constraint row holding the unit entry, contradicting the
claim.  End to end, `solve` on c=[-2], A=[[1]], b=[5] reports x_0 = 0
instead of x_0 = 5 for the same reason. -/
theorem C9_extraction_reads_objective_row :
    isPivotCol [(1 : ℚ), -2] = true ∧
      primalSolution [[(1 : ℚ), 5], [-2, 7]] = [(0, 7)] ∧
      solve [-2] [[1]] [5] 1000 = .ok (1000, [[1, 5], [-2, 0]], some [(0, 0)], some 0) ∧
      ((7 : ℚ) ≠ 5 ∧ (0 : ℚ) ≠ 5) :=
  ⟨by with_unfolding_all decide, by with_unfolding_all decide,
    by with_unfolding_all rfl, by norm_num, by norm_num⟩

/-- C10: whenever `_find_pivot` returns an actual pivot pair
`(some r, some c)`, the tableau entry at `(r, c)` is strictly positive,
so the division by the pivot entry in `_pivot` never divides by zero. -/
theorem C10_pivot_entry_positive {tab : Tab} {m n : ℕ} {r c : ℕ} (h : Rect m n tab)
    (hfp : findPivot tab = (some r, some c)) :
    0 < entry tab r c ∧ entry tab r c ≠ 0 :=
  ⟨(findPivot_spec h hfp).2.1, ne_of_gt (findPivot_spec h hfp).2.1⟩

/-- Witness for C10 at the tableau [[1, 2], [1, 0]]: the selected pivot
is (0, 0) and the entry there is 1 > 0. -/
theorem C10_pivot_entry_positive_witness :
    (Rect 1 1 [[(1 : ℚ), 2], [1, 0]] ∧
      findPivot [[(1 : ℚ), 2], [1, 0]] = (some 0, some 0)) ∧
      (0 < entry [[(1 : ℚ), 2], [1, 0]] 0 0 ∧ entry [[(1 : ℚ), 2], [1, 0]] 0 0 ≠ 0) :=
  ⟨⟨by constructor <;> decide, by with_unfolding_all decide⟩,
    C10_pivot_entry_positive (show Rect 1 1 [[(1 : ℚ), 2], [1, 0]] by constructor <;> decide)
      (by with_unfolding_all decide)⟩

end Simplex
